import Mathlib

/-!
Verification of the fuzzy-allocator indicator engine and signal generator.

The Python source (src/fuzzy_allocator/trading_funcs.py and
src/fuzzy_allocator/fetch.py) is shallowly embedded here:

* a price series is a chronological list of closing prices; IEEE float64
  arithmetic is idealised as exact rational arithmetic, with `none` standing
  for NaN and the two poles of `WithBot (WithTop ℚ)` standing for ±∞
  (the only place an infinity can arise is the division close / MA when the
  rolling mean is zero, exactly as in float64);
* `close.rolling(window=w).mean()` / `.std()` (pandas defaults:
  min_periods = w, ddof = 1) become `rollingMeanAt` / `rollingStdAt`;
* `scipy.stats.percentileofscore` with its default `kind='rank'` becomes
  `percentileofscore`: for n values it returns
  (count< + count≤ + [score present]) * 50 / n;
* `Series.dropna()` becomes `List.filterMap id`, and the Python slice
  `.iloc[-lookback:]` becomes `ilocLast` (note the Python quirk that
  `-0` slices the whole series);
* `.iloc[-1]` on an empty series raises `IndexError`; fallible code is
  embedded with `Except`.
-/

namespace FuzzyAlloc

/-- A chronological series of closing prices (float64 idealised as ℚ). -/
abbrev PriceSeries := List ℚ

/-- Extended rationals: finite values together with −∞ (`⊥`) and +∞ (`⊤`),
the idealisation of the IEEE infinities a float64 division can produce. -/
abbrev XQ := WithBot (WithTop ℚ)

/-- The finite extended rational. -/
def XQ.fin (q : ℚ) : XQ := ((q : WithTop ℚ) : XQ)

/-- Plus infinity. -/
def XQ.pinf : XQ := ((⊤ : WithTop ℚ) : XQ)

/-- Minus infinity. -/
def XQ.ninf : XQ := (⊥ : XQ)

/-- The trailing window of `w` observations ending at index `i`:
the slice of `xs` from index `i+1-w` up to and including index `i`. -/
def winAt (xs : List ℚ) (w i : ℕ) : List ℚ :=
  (xs.take (i + 1)).drop (i + 1 - w)

/-- `close.rolling(window=w).mean()` at index `i`: with pandas' default
`min_periods = w` the mean is NaN (`none`) until a full window of `w`
observations is available. -/
def rollingMeanAt (xs : List ℚ) (w i : ℕ) : Option ℚ :=
  if w ≤ i + 1 ∧ i < xs.length then some ((winAt xs w i).sum / (w : ℚ)) else none

/-- IEEE float64 division `c / m` of two finite values: NaN (`none`) for
0 / 0 and a signed infinity when only the divisor is zero. -/
def fdivQ (c m : ℚ) : Option XQ :=
  if m = 0 then
    if c = 0 then none else if 0 < c then some XQ.pinf else some XQ.ninf
  else some (XQ.fin (c / m))

/-- The PMARP ratio `close / MA` at index `i` (`df["PMARP"]` in the source);
NaN (`none`) while the rolling mean is still warming up. -/
def pmarpAt (xs : List ℚ) (w i : ℕ) : Option XQ :=
  (rollingMeanAt xs w i).bind fun m => fdivQ (xs.getD i 0) m

/-- The full `df["PMARP"]` column. -/
def pmarpSeries (xs : List ℚ) (w : ℕ) : List (Option XQ) :=
  (List.range xs.length).map (pmarpAt xs w)

/-- `df["PMARP"].dropna()`: the valid (non-NaN) ratios, in order. -/
def validRatios (xs : List ℚ) (w : ℕ) : List XQ :=
  (pmarpSeries xs w).filterMap id

/-- The number of values in `a` strictly below `x`. -/
def countLT {α : Type} [LinearOrder α] (a : List α) (x : α) : ℕ :=
  (a.map fun y => if y < x then 1 else 0).sum

/-- The number of values in `a` at or below `x`. -/
def countLE {α : Type} [LinearOrder α] (a : List α) (x : α) : ℕ :=
  (a.map fun y => if y ≤ x then 1 else 0).sum

/-- The number of values in `a` equal to `x`. -/
def countEQ {α : Type} [LinearOrder α] (a : List α) (x : α) : ℕ :=
  (a.map fun y => if y = x then 1 else 0).sum

/-- `scipy.stats.percentileofscore(a, score)` with the default
`kind='rank'`: `(left + right + plus1) * 50 / n` where `left` and `right`
count the values strictly below resp. at or below the score and `plus1`
is 1 exactly when the score occurs in `a`. -/
def percentileofscore {α : Type} [LinearOrder α] (a : List α) (score : α) : ℚ :=
  ((countLT a score : ℚ) + (countLE a score : ℚ) +
    (if countLT a score < countLE a score then 1 else 0)) * 50 / (a.length : ℚ)

/-- The Python slice `.iloc[-lb:]`: the last `lb` entries — except that
`-0` is `0`, so `lb = 0` slices the whole series. -/
def ilocLast {α : Type} (l : List α) (lb : ℕ) : List α :=
  if lb = 0 then l else l.drop (l.length - lb)

/-- `compute_pmarp(df, ma_period, lookback)` from
src/fuzzy_allocator/trading_funcs.py: ratio of close to its `w`-bar
rolling mean, `None` when fewer than `lb` valid ratios exist, otherwise
the last valid ratio paired with its percentile rank over the last `lb`
valid ratios.  `.iloc[-1]` on an empty slice raises, hence the `Except`. -/
def compute_pmarp (xs : PriceSeries) (w lb : ℕ) :
    Except String (Option (XQ × ℚ)) :=
  if (validRatios xs w).length < lb then .ok none
  else
    match (ilocLast (validRatios xs w) lb).getLast? with
    | none => .error "IndexError"
    | some cur =>
      .ok (some (cur, percentileofscore (ilocLast (validRatios xs w) lb) cur))

/-- `generate_final_signal` from src/fuzzy_allocator/fetch.py. -/
def generate_final_signal (pmarp_percentile bb_percentile : ℚ)
    (buy_threshold : ℚ := 25) (sell_threshold : ℚ := 90) : String :=
  if pmarp_percentile ≤ buy_threshold ∧ bb_percentile ≤ buy_threshold then
    "Buy"
  else if sell_threshold ≤ pmarp_percentile ∧ sell_threshold ≤ bb_percentile then
    "Sell"
  else
    "Hold"

/-- `close.rolling(window=w).std()` squared, i.e. the rolling *sample*
variance, computed exactly: pandas' default `ddof = 1` divides the sum of
squared deviations from the window mean by `w - 1`.  NaN (`none`) during
warm-up and for `w ≤ 1`, where the `0 / 0` of a zero divisor is NaN. -/
def rollingVarAt (xs : List ℚ) (w i : ℕ) : Option ℚ :=
  if 2 ≤ w ∧ w ≤ i + 1 ∧ i < xs.length then
    some (((winAt xs w i).map
      (fun x => (x - (winAt xs w i).sum / (w : ℚ)) ^ 2)).sum / ((w : ℚ) - 1))
  else none

/-- `close.rolling(window=w).std()` at index `i` (`df["std_bb"]`). -/
noncomputable def rollingStdAt (xs : List ℚ) (w i : ℕ) : Option ℝ :=
  (rollingVarAt xs w i).map fun (v : ℚ) => Real.sqrt (v : ℝ)

/-- `df["UpperBand"] = df["MA_bb"] + 2 * df["std_bb"]` at index `i`. -/
noncomputable def upperBandAt (xs : List ℚ) (w i : ℕ) : Option ℝ :=
  (rollingMeanAt xs w i).bind fun (m : ℚ) =>
    (rollingStdAt xs w i).map fun (s : ℝ) => (m : ℝ) + 2 * s

/-- `df["LowerBand"] = df["MA_bb"] - 2 * df["std_bb"]` at index `i`. -/
noncomputable def lowerBandAt (xs : List ℚ) (w i : ℕ) : Option ℝ :=
  (rollingMeanAt xs w i).bind fun (m : ℚ) =>
    (rollingStdAt xs w i).map fun (s : ℝ) => (m : ℝ) - 2 * s

/-- IEEE float64 division of band-position numerator by band width.  A zero
divisor is mapped to NaN (`none`): inside `bbPosAt` the divisor is zero only
when the rolling std is zero, and then the numerator is provably zero as
well (see `bb_zero_width_band_nan`), so this is exactly float64's
`0.0 / 0.0 = NaN`. -/
noncomputable def fdivR (x y : ℝ) : Option ℝ :=
  if y = 0 then none else some (x / y)

/-- `df["BB_Pos"] = (close - df["LowerBand"]) / (df["UpperBand"] - df["LowerBand"])`
at index `i`; NaN operands propagate to NaN. -/
noncomputable def bbPosAt (xs : List ℚ) (w i : ℕ) : Option ℝ :=
  match lowerBandAt xs w i, upperBandAt xs w i with
  | some lo, some up => fdivR ((xs.getD i 0 : ℝ) - lo) (up - lo)
  | _, _ => none

/-- The full `df["BB_Pos"]` column. -/
noncomputable def bbPosSeries (xs : List ℚ) (w : ℕ) : List (Option ℝ) :=
  (List.range xs.length).map (bbPosAt xs w)

/-- `compute_bb_percentile(df, ma_period, lookback)` from
src/fuzzy_allocator/trading_funcs.py: same dropna / lookback / percentile
pipeline as `compute_pmarp`, over the Bollinger-band positions. -/
noncomputable def compute_bb_percentile (xs : PriceSeries) (w lb : ℕ) :
    Except String (Option (ℝ × ℚ)) :=
  if ((bbPosSeries xs w).filterMap id).length < lb then .ok none
  else
    match (ilocLast ((bbPosSeries xs w).filterMap id) lb).getLast? with
    | none => .error "IndexError"
    | some cur =>
      .ok (some (cur,
        percentileofscore (ilocLast ((bbPosSeries xs w).filterMap id) lb) cur))

/-- One step of the `ewm(span=span, adjust=False)` recursion:
`y = (1 - α) * y_prev + α * x`. -/
def emaStep (a prev x : ℚ) : ℚ := (1 - a) * prev + a * x

/-- `close.ewm(span=span, adjust=False).mean().iloc[-1]`: the recursive EMA
with smoothing factor `α = 2 / (span + 1)`, seeded from the first observed
close with no warm-up averaging; `none` on an empty series. -/
def emaLast (xs : PriceSeries) (span : ℕ) : Option ℚ :=
  match xs with
  | [] => none
  | x :: rest => some (rest.foldl (emaStep (2 / ((span : ℚ) + 1))) x)

/-- `compute_ema_trend(df, short_period, long_period)` from
src/fuzzy_allocator/trading_funcs.py; `.iloc[-1]` on an empty series
raises, hence the `Except`. -/
def compute_ema_trend (xs : PriceSeries) (s l : ℕ) : Except String String :=
  match emaLast xs s, emaLast xs l with
  | some sl, some ll =>
    .ok (if ll < sl then "Uptrend"
      else if sl < ll then "Downtrend" else "Sideways")
  | _, _ => .error "IndexError"

/-- A caller-visible data frame: named numeric columns.  The engine only
ever reads the `Close` column of the caller's frame. -/
abbrev DataFrame := List (String × List ℚ)

/-- `df["Close"]` lookup. -/
def getCol (df : DataFrame) (n : String) : Option (List ℚ) :=
  (df.find? fun c => c.1 == n).map Prod.snd

/-- `compute_pmarp` at the frame level.  The source copies the caller's
frame (`df = df.copy()`) and adds its scratch `MA` and `PMARP` columns to
that copy only, so the caller's frame is returned exactly as it came in;
a missing `Close` column raises `KeyError`. -/
def compute_pmarp_frame (df : DataFrame) (w lb : ℕ) :
    Except String (Option (XQ × ℚ)) × DataFrame :=
  match getCol df "Close" with
  | none => (.error "KeyError", df)
  | some close => (compute_pmarp close w lb, df)

/-- `compute_bb_percentile` at the frame level: `MA_bb`, `std_bb`,
`UpperBand`, `LowerBand` and `BB_Pos` are all written to the local copy of
the frame, never to the caller's. -/
noncomputable def compute_bb_frame (df : DataFrame) (w lb : ℕ) :
    Except String (Option (ℝ × ℚ)) × DataFrame :=
  match getCol df "Close" with
  | none => (.error "KeyError", df)
  | some close => (compute_bb_percentile close w lb, df)

/-- `compute_ema_trend` at the frame level: the source neither copies nor
writes the frame; it only reads `Close` into two local EMA series. -/
def compute_ema_frame (df : DataFrame) (s l : ℕ) :
    Except String String × DataFrame :=
  match getCol df "Close" with
  | none => (.error "KeyError", df)
  | some close => (compute_ema_trend close s l, df)

/-! ### Helper lemmas about the counting primitives -/

theorem countLE_eq_countLT_add_countEQ {α : Type} [LinearOrder α]
    (a : List α) (x : α) : countLE a x = countLT a x + countEQ a x := by
  induction a with
  | nil => rfl
  | cons y ys ih =>
    simp only [countLE, countLT, countEQ, List.map_cons, List.sum_cons] at ih ⊢
    rcases lt_trichotomy y x with h | h | h
    · rw [if_pos h.le, if_pos h, if_neg h.ne, ih]; omega
    · rw [if_pos h.le, if_neg (by simp [h]), if_pos h, ih]; omega
    · rw [if_neg (not_le.mpr h), if_neg (asymm h), if_neg (ne_of_gt h), ih]; omega

theorem countEQ_pos_of_mem {α : Type} [LinearOrder α]
    {a : List α} {x : α} (h : x ∈ a) : 0 < countEQ a x := by
  induction a with
  | nil => simp at h
  | cons y ys ih =>
    simp only [countEQ, List.map_cons, List.sum_cons]
    rcases List.mem_cons.mp h with h | h
    · rw [if_pos h.symm]; omega
    · have := ih h; simp only [countEQ] at this; omega

theorem countLT_append {α : Type} [LinearOrder α] (a b : List α) (x : α) :
    countLT (a ++ b) x = countLT a x + countLT b x := by
  simp [countLT, List.map_append]

theorem countEQ_append {α : Type} [LinearOrder α] (a b : List α) (x : α) :
    countEQ (a ++ b) x = countEQ a x + countEQ b x := by
  simp [countEQ, List.map_append]

theorem countLT_eq_length_of_forall_lt {α : Type} [LinearOrder α]
    {a : List α} {x : α} (h : ∀ y ∈ a, y < x) : countLT a x = a.length := by
  induction a with
  | nil => rfl
  | cons y ys ih =>
    simp only [countLT, List.map_cons, List.sum_cons, List.length_cons]
    rw [if_pos (h y (List.mem_cons_self y ys))]
    have := ih fun z hz => h z (List.mem_cons_of_mem y hz)
    simp only [countLT] at this; omega

theorem countEQ_eq_zero_of_forall_lt {α : Type} [LinearOrder α]
    {a : List α} {x : α} (h : ∀ y ∈ a, y < x) : countEQ a x = 0 := by
  induction a with
  | nil => rfl
  | cons y ys ih =>
    simp only [countEQ, List.map_cons, List.sum_cons]
    rw [if_neg (ne_of_lt (h y (List.mem_cons_self y ys)))]
    have := ih fun z hz => h z (List.mem_cons_of_mem y hz)
    simp only [countEQ] at this; omega

/-- Anatomy of a present `compute_pmarp` result: the lookback window has
exactly `lb` entries, the current value is its last entry, and the
percentile is `percentileofscore` of the current value over that window. -/
theorem compute_pmarp_ok_elim {xs : PriceSeries} {w lb : ℕ} {cur : XQ} {pct : ℚ}
    (hlb : 0 < lb) (h : compute_pmarp xs w lb = .ok (some (cur, pct))) :
    lb ≤ (validRatios xs w).length ∧
    (ilocLast (validRatios xs w) lb).length = lb ∧
    (ilocLast (validRatios xs w) lb).getLast? = some cur ∧
    pct = percentileofscore (ilocLast (validRatios xs w) lb) cur := by
  unfold compute_pmarp at h
  by_cases hlen : (validRatios xs w).length < lb
  · simp [hlen] at h
  · simp only [hlen, if_false] at h
    refine ⟨not_lt.mp hlen, ?_, ?_⟩
    · simp only [ilocLast, hlb.ne.symm, if_false, List.length_drop]
      omega
    · cases hg : (ilocLast (validRatios xs w) lb).getLast? with
      | none => rw [hg] at h; exact absurd h (by simp)
      | some c =>
        rw [hg] at h
        simp only [Except.ok.injEq, Option.some.injEq, Prod.mk.injEq] at h
        exact ⟨by rw [h.1], h.1 ▸ h.2.symm⟩

/-! ### Helper lemmas about rolling windows and bands -/

theorem winAt_length {xs : List ℚ} {w i : ℕ} (hwi : w ≤ i + 1)
    (hi : i < xs.length) : (winAt xs w i).length = w := by
  simp only [winAt, List.length_drop, List.length_take]
  omega

theorem getD_mem_winAt {xs : List ℚ} {w i : ℕ} (hw : 1 ≤ w)
    (hwi : w ≤ i + 1) (hi : i < xs.length) : xs.getD i 0 ∈ winAt xs w i := by
  have hlen : (winAt xs w i).length = w := winAt_length hwi hi
  have hj : w - 1 < (winAt xs w i).length := by omega
  have : (winAt xs w i).get ⟨w - 1, hj⟩ = xs.getD i 0 := by
    simp only [List.get_eq_getElem, winAt, List.getElem_drop, List.getElem_take]
    rw [List.getD_eq_getElem xs 0 hi]
    congr 1
    omega
  rw [← this]
  exact List.get_mem _ _ _

theorem sq_dev_sum_zero {m : ℚ} : ∀ {l : List ℚ},
    (l.map fun x => (x - m) ^ 2).sum = 0 → ∀ x ∈ l, x = m := by
  intro l
  induction l with
  | nil => intro _ x hx; simp at hx
  | cons y ys ih =>
    intro h x hx
    simp only [List.map_cons, List.sum_cons] at h
    have h1 : (0 : ℚ) ≤ (y - m) ^ 2 := sq_nonneg _
    have h2 : (0 : ℚ) ≤ (ys.map fun x => (x - m) ^ 2).sum :=
      List.sum_nonneg fun a ha => by
        obtain ⟨b, _, hb⟩ := List.mem_map.mp ha
        exact hb ▸ sq_nonneg _
    have hy : (y - m) ^ 2 = 0 := by linarith
    have hys : (ys.map fun x => (x - m) ^ 2).sum = 0 := by linarith
    rcases List.mem_cons.mp hx with hx | hx
    · have := pow_eq_zero_iff (n := 2) (by norm_num) |>.mp hy
      rw [hx]; linarith [this]
    · exact ih hys x hx

theorem rollingVarAt_elim {xs : List ℚ} {w i : ℕ} {v : ℚ}
    (hv : rollingVarAt xs w i = some v) :
    (2 ≤ w ∧ w ≤ i + 1 ∧ i < xs.length) ∧
    v = ((winAt xs w i).map
      (fun x => (x - (winAt xs w i).sum / (w : ℚ)) ^ 2)).sum / ((w : ℚ) - 1) := by
  unfold rollingVarAt at hv
  by_cases hg : 2 ≤ w ∧ w ≤ i + 1 ∧ i < xs.length
  · rw [if_pos hg] at hv
    exact ⟨hg, (Option.some.injEq _ _ ▸ hv).symm⟩
  · rw [if_neg hg] at hv
    exact absurd hv (by simp)

theorem rollingVarAt_nonneg {xs : List ℚ} {w i : ℕ} {v : ℚ}
    (hv : rollingVarAt xs w i = some v) : 0 ≤ v := by
  obtain ⟨⟨h2w, _, _⟩, hveq⟩ := rollingVarAt_elim hv
  rw [hveq]
  apply div_nonneg
  · exact List.sum_nonneg fun a ha => by
      obtain ⟨b, _, hb⟩ := List.mem_map.mp ha
      exact hb ▸ sq_nonneg _
  · have : (2 : ℚ) ≤ (w : ℚ) := by exact_mod_cast h2w
    linarith

theorem upperBandAt_elim {xs : List ℚ} {w i : ℕ} {u : ℝ}
    (hu : upperBandAt xs w i = some u) :
    ∃ m s, rollingMeanAt xs w i = some m ∧ rollingStdAt xs w i = some s ∧
      u = (m : ℝ) + 2 * s := by
  unfold upperBandAt at hu
  obtain ⟨m, hm, hu2⟩ := Option.bind_eq_some.mp hu
  obtain ⟨s, hs, hu3⟩ := Option.map_eq_some'.mp hu2
  exact ⟨m, s, hm, hs, hu3.symm⟩

theorem lowerBandAt_elim {xs : List ℚ} {w i : ℕ} {u : ℝ}
    (hu : lowerBandAt xs w i = some u) :
    ∃ m s, rollingMeanAt xs w i = some m ∧ rollingStdAt xs w i = some s ∧
      u = (m : ℝ) - 2 * s := by
  unfold lowerBandAt at hu
  obtain ⟨m, hm, hu2⟩ := Option.bind_eq_some.mp hu
  obtain ⟨s, hs, hu3⟩ := Option.map_eq_some'.mp hu2
  exact ⟨m, s, hm, hs, hu3.symm⟩

theorem ratCast_sum_map (l : List ℚ) (f : ℚ → ℚ) :
    (((l.map f).sum : ℚ) : ℝ) = (l.map fun x => ((f x : ℚ) : ℝ)).sum := by
  induction l with
  | nil => simp
  | cons x xs ih => push_cast [List.map_cons, List.sum_cons, ih]; ring

/-! ### Claim theorems: PMARP and final signal -/

/-- C1 (counterexample): on the series `[1, 1]` with `ma_period = 1`,
`lookback = 2`, `compute_pmarp` returns percentile 75, while the claim's
average-rank formula `(count< + 0.5·count=) / n · 100` over the same
window and current value yields 50: the claim's formula does not match
the code's default scipy `kind='rank'` convention. -/
theorem pmarp_mean_convention_counterexample :
    compute_pmarp [1, 1] 1 2 = .ok (some (XQ.fin 1, 75)) ∧
    ((countLT (ilocLast (validRatios [1, 1] 1) 2) (XQ.fin 1) : ℚ) +
      (countEQ (ilocLast (validRatios [1, 1] 1) 2) (XQ.fin 1) : ℚ) / 2) /
      (2 : ℚ) * 100 = 50 ∧
    (75 : ℚ) ≠ 50 := by
  refine ⟨?_, ?_, by norm_num⟩
  · norm_num [compute_pmarp, validRatios, pmarpSeries, pmarpAt, rollingMeanAt,
      winAt, fdivQ, ilocLast, percentileofscore, countLT, countLE, XQ.fin,
      List.range_succ, List.filterMap_cons, List.getLast?]
  · norm_num [validRatios, pmarpSeries, pmarpAt, rollingMeanAt, winAt, fdivQ,
      ilocLast, countLT, countEQ, XQ.fin, List.range_succ, List.filterMap_cons]

/-- C1 (amended): whenever `compute_pmarp` returns a present result with
positive `lookback`, the window has exactly `lookback` entries and the
returned percentile equals
`(count(values < x) + 0.5·count(values = x) + 0.5) / n · 100` — scipy's
default `kind='rank'` convention for a score that occurs in the data,
which exceeds the claimed average-rank value by exactly `50 / n`. -/
theorem pmarp_percentile_rank_formula (xs : PriceSeries) (w lb : ℕ)
    (cur : XQ) (pct : ℚ) (hlb : 0 < lb)
    (h : compute_pmarp xs w lb = .ok (some (cur, pct))) :
    (ilocLast (validRatios xs w) lb).length = lb ∧
    pct = ((countLT (ilocLast (validRatios xs w) lb) cur : ℚ) +
      (countEQ (ilocLast (validRatios xs w) lb) cur : ℚ) / 2 + 1 / 2) /
      (lb : ℚ) * 100 := by
  obtain ⟨-, hlen, hg, hpct⟩ := compute_pmarp_ok_elim hlb h
  refine ⟨hlen, ?_⟩
  have hmem : cur ∈ ilocLast (validRatios xs w) lb := by
    have := List.dropLast_append_getLast? cur hg
    rw [← this]; simp
  have hEQ : 0 < countEQ (ilocLast (validRatios xs w) lb) cur :=
    countEQ_pos_of_mem hmem
  have hLE := countLE_eq_countLT_add_countEQ (ilocLast (validRatios xs w) lb) cur
  rw [hpct]
  unfold percentileofscore
  rw [hLE, if_pos (by omega), hlen]
  have hlbQ : (lb : ℚ) ≠ 0 := Nat.cast_ne_zero.mpr hlb.ne.symm
  field_simp
  ring

/-- C2: with positive window parameters, `compute_pmarp` returns the
absent value exactly when fewer than `lookback` valid (non-NaN) ratios
exist after the rolling-window warm-up, and it always returns normally
(never through the exceptional branch). -/
theorem pmarp_absent_iff_insufficient (xs : PriceSeries) (w lb : ℕ)
    (_hw : 0 < w) (hlb : 0 < lb) :
    (compute_pmarp xs w lb = .ok none ↔ (validRatios xs w).length < lb) ∧
    ∃ r, compute_pmarp xs w lb = .ok r := by
  by_cases hlen : (validRatios xs w).length < lb
  · refine ⟨⟨fun _ => hlen, fun _ => ?_⟩, ⟨none, ?_⟩⟩ <;>
      simp [compute_pmarp, hlen]
  · have hwin : (ilocLast (validRatios xs w) lb).length = lb := by
      simp only [ilocLast, hlb.ne.symm, if_false, List.length_drop]
      omega
    have hne : ilocLast (validRatios xs w) lb ≠ [] := by
      intro hnil
      rw [hnil] at hwin
      exact hlb.ne (by simpa using hwin)
    obtain ⟨c, hc⟩ := Option.ne_none_iff_exists.mp
      (mt List.getLast?_eq_none_iff.mp hne)
    constructor
    · constructor
      · intro hok
        unfold compute_pmarp at hok
        rw [if_neg hlen, ← hc] at hok
        exact absurd hok (by simp)
      · intro hc2; exact absurd hc2 hlen
    · refine ⟨some (c, percentileofscore (ilocLast (validRatios xs w) lb) c), ?_⟩
      unfold compute_pmarp
      rw [if_neg hlen, ← hc]

/-- C3: `generate_final_signal` returns Buy exactly when both percentiles
are at most the buy threshold, else Sell exactly when both are at least
the sell threshold, else Hold, with the Buy branch checked first; and the
spec's three concrete cases at the default thresholds 25 and 90 hold. -/
theorem final_signal_spec (p b bt st : ℚ) :
    (generate_final_signal p b bt st = "Buy" ↔ p ≤ bt ∧ b ≤ bt) ∧
    (generate_final_signal p b bt st = "Sell" ↔
      ¬(p ≤ bt ∧ b ≤ bt) ∧ st ≤ p ∧ st ≤ b) ∧
    (generate_final_signal p b bt st = "Hold" ↔
      ¬(p ≤ bt ∧ b ≤ bt) ∧ ¬(st ≤ p ∧ st ≤ b)) ∧
    generate_final_signal 20 20 25 90 = "Buy" ∧
    generate_final_signal 95 95 = "Sell" ∧
    generate_final_signal 50 50 = "Hold" := by
  refine ⟨?_, ?_, ?_, by norm_num [generate_final_signal],
    by norm_num [generate_final_signal], by norm_num [generate_final_signal]⟩ <;>
    unfold generate_final_signal <;> split_ifs <;> simp_all

/-- C7 (counterexample): on the series `[2, 2]` with `ma_period = 1`,
`lookback = 2`, the current ratio 1 is the maximum of its window (every
window value is ≤ 1, i.e. `count≤ = n`), yet the returned percentile is
75, not 100: a current value that ties for the maximum does not reach
percentile 100. -/
theorem pmarp_max_percentile_counterexample :
    compute_pmarp [2, 2] 1 2 = .ok (some (XQ.fin 1, 75)) ∧
    countLE (ilocLast (validRatios [2, 2] 1) 2) (XQ.fin 1) =
      (ilocLast (validRatios [2, 2] 1) 2).length ∧
    (75 : ℚ) ≠ 100 := by
  refine ⟨?_, ?_, by norm_num⟩
  · norm_num [compute_pmarp, validRatios, pmarpSeries, pmarpAt, rollingMeanAt,
      winAt, fdivQ, ilocLast, percentileofscore, countLT, countLE, XQ.fin,
      List.range_succ, List.filterMap_cons, List.getLast?]
  · norm_num [validRatios, pmarpSeries, pmarpAt, rollingMeanAt, winAt, fdivQ,
      ilocLast, countLE, XQ.fin, List.range_succ, List.filterMap_cons]

/-- C7 (amended): whenever `compute_pmarp` returns a present result with
positive `lookback` and the current ratio is *strictly* greater than every
other ratio in the lookback window, the returned percentile equals 100. -/
theorem pmarp_strict_max_percentile_100 (xs : PriceSeries) (w lb : ℕ)
    (cur : XQ) (pct : ℚ) (hlb : 0 < lb)
    (h : compute_pmarp xs w lb = .ok (some (cur, pct)))
    (hmax : ∀ y ∈ (ilocLast (validRatios xs w) lb).dropLast, y < cur) :
    pct = 100 := by
  obtain ⟨-, hlen, hg, hpct⟩ := compute_pmarp_ok_elim hlb h
  have hsplit := List.dropLast_append_getLast? cur hg
  set win := ilocLast (validRatios xs w) lb with hwin
  have hLT : countLT win cur = lb - 1 := by
    rw [← hsplit, countLT_append, countLT_eq_length_of_forall_lt hmax]
    have : countLT [cur] cur = 0 := by simp [countLT]
    rw [this]
    have : win.dropLast.length = lb - 1 := by
      rw [List.length_dropLast, hlen]
    omega
  have hEQ : countEQ win cur = 1 := by
    rw [← hsplit, countEQ_append, countEQ_eq_zero_of_forall_lt hmax]
    simp [countEQ]
  have hLE := countLE_eq_countLT_add_countEQ win cur
  rw [hpct]
  unfold percentileofscore
  rw [hLE, hLT, hEQ, if_pos (by omega), hlen]
  have hlbQ : (lb : ℚ) ≠ 0 := Nat.cast_ne_zero.mpr hlb.ne.symm
  have hcast : ((lb - 1 : ℕ) : ℚ) = (lb : ℚ) - 1 := by
    have : (1 : ℕ) ≤ lb := hlb
    push_cast [this]
    ring
  rw [hcast]
  field_simp
  ring

/-- C1 (witness): the amended percentile formula instantiated on the
series `[1, 1]` with `ma_period = 1`, `lookback = 2`. -/
theorem pmarp_percentile_rank_formula_witness :
    0 < 2 ∧
    ((ilocLast (validRatios [1, 1] 1) 2).length = 2 ∧
      (75 : ℚ) = ((countLT (ilocLast (validRatios [1, 1] 1) 2) (XQ.fin 1) : ℚ) +
        (countEQ (ilocLast (validRatios [1, 1] 1) 2) (XQ.fin 1) : ℚ) / 2 + 1 / 2) /
        (2 : ℚ) * 100) :=
  ⟨by norm_num,
    pmarp_percentile_rank_formula [1, 1] 1 2 (XQ.fin 1) 75 (by norm_num)
      (by norm_num [compute_pmarp, validRatios, pmarpSeries, pmarpAt,
        rollingMeanAt, winAt, fdivQ, ilocLast, percentileofscore, countLT,
        countLE, XQ.fin, List.range_succ, List.filterMap_cons, List.getLast?])⟩

/-- C2 (witness): on the series `[1, 2]` with `ma_period = 1` only two
valid ratios exist, so with `lookback = 3` the result is absent. -/
theorem pmarp_absent_iff_insufficient_witness :
    0 < 1 ∧ 0 < 3 ∧
    ((compute_pmarp [1, 2] 1 3 = .ok none ↔ (validRatios [1, 2] 1).length < 3) ∧
      ∃ r, compute_pmarp [1, 2] 1 3 = .ok r) :=
  ⟨Nat.one_pos, by norm_num,
    pmarp_absent_iff_insufficient [1, 2] 1 3 Nat.one_pos (by norm_num)⟩

/-- C7 (witness): on `[1, 1, 1, 2]` with `ma_period = 2`, `lookback = 3`
the final ratio 4/3 strictly exceeds both other window ratios and the
percentile is 100. -/
theorem pmarp_strict_max_percentile_100_witness :
    0 < 3 ∧ (100 : ℚ) = 100 :=
  ⟨by norm_num,
    pmarp_strict_max_percentile_100 [1, 1, 1, 2] 2 3 (XQ.fin (4 / 3)) 100
      (by norm_num)
      (by norm_num [compute_pmarp, validRatios, pmarpSeries, pmarpAt,
        rollingMeanAt, winAt, fdivQ, ilocLast, percentileofscore, countLT,
        countLE, XQ.fin, List.range_succ, List.filterMap_cons, List.getLast?])
      (by norm_num [validRatios, pmarpSeries, pmarpAt, rollingMeanAt, winAt,
        fdivQ, ilocLast, XQ.fin, List.range_succ, List.filterMap_cons])⟩

/-! ### Claim theorems: Bollinger bands -/

/-- C4: at any bar where the upper and lower Bollinger bands are defined
and equal (zero rolling standard deviation), the band position is the NaN
sentinel (`none`) rather than an error; moreover the numerator
`close - LowerBand` is exactly zero there, so the float64 computation is
`0.0 / 0.0 = NaN`, not a raised division fault. -/
theorem bb_zero_width_band_nan (xs : PriceSeries) (w i : ℕ) (u : ℝ)
    (hu : upperBandAt xs w i = some u) (hl : lowerBandAt xs w i = some u) :
    bbPosAt xs w i = none ∧ ((xs.getD i 0 : ℚ) : ℝ) - u = 0 := by
  obtain ⟨m, s, hm, hs, hueq⟩ := upperBandAt_elim hu
  obtain ⟨m', s', hm', hs', hleq⟩ := lowerBandAt_elim hl
  rw [hm] at hm'
  rw [hs] at hs'
  have hmm : m' = m := by simpa using hm'.symm
  have hss : s' = s := by simpa using hs'.symm
  rw [hmm, hss] at hleq
  have hs0 : s = 0 := by
    have : (m : ℝ) + 2 * s = (m : ℝ) - 2 * s := by rw [← hueq, ← hleq]
    linarith
  obtain ⟨v, hv, hsv⟩ : ∃ v, rollingVarAt xs w i = some v ∧
      Real.sqrt (v : ℝ) = s := by
    cases hvv : rollingVarAt xs w i with
    | none => rw [rollingStdAt, hvv] at hs; exact absurd hs (by simp)
    | some v =>
      rw [rollingStdAt, hvv] at hs
      exact ⟨v, rfl, by simpa using hs⟩
  have hv0 : (0 : ℚ) ≤ v := rollingVarAt_nonneg hv
  have hveq0 : v = 0 := by
    have hz : Real.sqrt (v : ℝ) = 0 := by rw [hsv, hs0]
    have hvr : (v : ℝ) = 0 :=
      (Real.sqrt_eq_zero (by exact_mod_cast hv0)).mp hz
    exact_mod_cast hvr
  obtain ⟨⟨h2w, hwi, hi⟩, hvformula⟩ := rollingVarAt_elim hv
  have hsum : ((winAt xs w i).map
      (fun x => (x - (winAt xs w i).sum / (w : ℚ)) ^ 2)).sum = 0 := by
    have hwQ : ((w : ℚ) - 1) ≠ 0 := by
      have : (2 : ℚ) ≤ (w : ℚ) := by exact_mod_cast h2w
      linarith
    have h0 : ((winAt xs w i).map
        (fun x => (x - (winAt xs w i).sum / (w : ℚ)) ^ 2)).sum / ((w : ℚ) - 1)
        = 0 := by
      rw [← hvformula, hveq0]
    rcases div_eq_zero_iff.mp h0 with h | h
    · exact h
    · exact absurd h hwQ
  have hallm : ∀ x ∈ winAt xs w i, x = (winAt xs w i).sum / (w : ℚ) :=
    sq_dev_sum_zero hsum
  have hclose : xs.getD i 0 = (winAt xs w i).sum / (w : ℚ) :=
    hallm _ (getD_mem_winAt (by omega) hwi hi)
  have hmean : m = (winAt xs w i).sum / (w : ℚ) := by
    unfold rollingMeanAt at hm
    rw [if_pos ⟨hwi, hi⟩] at hm
    simpa using hm.symm
  have hnum : ((xs.getD i 0 : ℚ) : ℝ) - u = 0 := by
    rw [hueq, hs0, hclose, hmean]
    push_cast
    ring
  refine ⟨?_, hnum⟩
  simp [bbPosAt, hl, hu, fdivR]

/-- C4 (witness): on the constant series `[1, 1]` with `ma_period = 2` the
bands at bar 1 coincide at value 1 and the position is NaN. -/
theorem bb_zero_width_band_nan_witness :
    upperBandAt [1, 1] 2 1 = some 1 ∧ lowerBandAt [1, 1] 2 1 = some 1 ∧
    bbPosAt [1, 1] 2 1 = none ∧ (((([1, 1] : List ℚ).getD 1 0 : ℚ)) : ℝ) - 1 = 0 := by
  have hv : rollingVarAt [1, 1] 2 1 = some 0 := by
    norm_num [rollingVarAt, winAt]
  have hs : rollingStdAt [1, 1] 2 1 = some 0 := by
    norm_num [rollingStdAt, hv, Real.sqrt_zero]
  have hm : rollingMeanAt [1, 1] 2 1 = some 1 := by
    norm_num [rollingMeanAt, winAt]
  have hu : upperBandAt [1, 1] 2 1 = some 1 := by
    norm_num [upperBandAt, hm, hs]
  have hl : lowerBandAt [1, 1] 2 1 = some 1 := by
    norm_num [lowerBandAt, hm, hs]
  obtain ⟨h1, h2⟩ := bb_zero_width_band_nan [1, 1] 2 1 1 hu hl
  exact ⟨hu, hl, h1, h2⟩

/-- C5: whenever the rolling standard deviation is defined, its square
times `ma_period - 1` equals the sum of squared deviations from the window
mean over the trailing window of exactly `ma_period` observations — i.e.
the code's `.rolling(w).std()` is the *sample* standard deviation with
degrees of freedom `w - 1` (divisor `n - 1`, not `n`). -/
theorem bb_std_sample_ddof (xs : PriceSeries) (w i : ℕ) (v : ℚ) (s : ℝ)
    (hv : rollingVarAt xs w i = some v) (hs : rollingStdAt xs w i = some s) :
    (winAt xs w i).length = w ∧
    s ^ 2 * ((w : ℝ) - 1) =
      ((winAt xs w i).map
        (fun (x : ℚ) => ((x : ℝ) - (((winAt xs w i).sum : ℚ) : ℝ) / (w : ℝ)) ^ 2)).sum := by
  obtain ⟨⟨h2w, hwi, hi⟩, hvformula⟩ := rollingVarAt_elim hv
  refine ⟨winAt_length hwi hi, ?_⟩
  have hv0 : (0 : ℚ) ≤ v := rollingVarAt_nonneg hv
  have hsv : s = Real.sqrt (v : ℝ) := by
    rw [rollingStdAt, hv] at hs
    simpa using hs.symm
  have hsq : s ^ 2 = (v : ℝ) := by
    rw [hsv, Real.sq_sqrt (by exact_mod_cast hv0)]
  have hwR : ((w : ℝ) - 1) ≠ 0 := by
    have : (2 : ℝ) ≤ (w : ℝ) := by exact_mod_cast h2w
    linarith
  have hcast : (((((winAt xs w i).map
      (fun x => (x - (winAt xs w i).sum / (w : ℚ)) ^ 2)).sum) : ℚ) : ℝ) =
      ((winAt xs w i).map
        (fun (x : ℚ) => ((x : ℝ) - (((winAt xs w i).sum : ℚ) : ℝ) / (w : ℝ)) ^ 2)).sum := by
    rw [ratCast_sum_map]
    refine congrArg List.sum (List.map_congr_left fun x _ => ?_)
    push_cast
    ring
  rw [hsq, ← hcast, hvformula]
  push_cast
  rw [div_mul_cancel₀ _ (by exact_mod_cast hwR)]

/-- C5 (witness): for the window `[1, 3]` (`ma_period = 2`, bar 1) the
rolling std is √2 — the sample convention; the population convention would
give 1. -/
theorem bb_std_sample_ddof_witness :
    (winAt [1, 3] 2 1).length = 2 ∧
    Real.sqrt 2 ^ 2 * ((2 : ℝ) - 1) =
      ((winAt [1, 3] 2 1).map
        (fun (x : ℚ) => ((x : ℝ) - (((winAt [1, 3] 2 1).sum : ℚ) : ℝ) / (2 : ℝ)) ^ 2)).sum := by
  have hv : rollingVarAt [1, 3] 2 1 = some 2 := by
    norm_num [rollingVarAt, winAt]
  have hs : rollingStdAt [1, 3] 2 1 = some (Real.sqrt 2) := by
    rw [rollingStdAt, hv]
    norm_num
  have := bb_std_sample_ddof [1, 3] 2 1 2 (Real.sqrt 2) hv hs
  simpa using this

/-- C8 (counterexample): on the constant series `[1, 1]` with
`ma_period = 2`, bar 1 is past warm-up and its close equals the moving
average, yet the Bollinger position is NaN (`none`), not 0.5: the claim
fails at zero-width bands. -/
theorem bb_position_half_counterexample :
    rollingMeanAt [1, 1] 2 1 = some 1 ∧ ([1, 1] : List ℚ).getD 1 0 = 1 ∧
    bbPosAt [1, 1] 2 1 = none ∧ bbPosAt [1, 1] 2 1 ≠ some (1 / 2 : ℝ) := by
  have hv : rollingVarAt [1, 1] 2 1 = some 0 := by
    norm_num [rollingVarAt, winAt]
  have hs : rollingStdAt [1, 1] 2 1 = some 0 := by
    norm_num [rollingStdAt, hv, Real.sqrt_zero]
  have hm : rollingMeanAt [1, 1] 2 1 = some 1 := by
    norm_num [rollingMeanAt, winAt]
  have hu : upperBandAt [1, 1] 2 1 = some 1 := by
    norm_num [upperBandAt, hm, hs]
  have hl : lowerBandAt [1, 1] 2 1 = some 1 := by
    norm_num [lowerBandAt, hm, hs]
  have hn : bbPosAt [1, 1] 2 1 = none := by
    simp [bbPosAt, hl, hu, fdivR]
  exact ⟨hm, rfl, hn, by rw [hn]; exact Option.noConfusion⟩

/-- C8 (amended): at any bar past warm-up whose close equals the moving
average and whose rolling variance is nonzero (positive band width), the
Bollinger position is exactly 0.5. -/
theorem bb_close_at_ma_position_half (xs : PriceSeries) (w i : ℕ)
    (m v : ℚ) (hm : rollingMeanAt xs w i = some m) (hc : xs.getD i 0 = m)
    (hv : rollingVarAt xs w i = some v) (hvne : v ≠ 0) :
    bbPosAt xs w i = some (1 / 2 : ℝ) := by
  have hv0 : (0 : ℚ) ≤ v := rollingVarAt_nonneg hv
  have hvpos : (0 : ℚ) < v := lt_of_le_of_ne hv0 (Ne.symm hvne)
  have hs : rollingStdAt xs w i = some (Real.sqrt (v : ℝ)) := by
    rw [rollingStdAt, hv]; rfl
  have hspos : (0 : ℝ) < Real.sqrt (v : ℝ) :=
    Real.sqrt_pos.mpr (by exact_mod_cast hvpos)
  have hl : lowerBandAt xs w i = some ((m : ℝ) - 2 * Real.sqrt (v : ℝ)) := by
    rw [lowerBandAt, hm, hs]; rfl
  have hu : upperBandAt xs w i = some ((m : ℝ) + 2 * Real.sqrt (v : ℝ)) := by
    rw [upperBandAt, hm, hs]; rfl
  simp only [bbPosAt, hl, hu, hc, fdivR]
  have hden : (m : ℝ) + 2 * Real.sqrt (v : ℝ) -
      ((m : ℝ) - 2 * Real.sqrt (v : ℝ)) = 4 * Real.sqrt (v : ℝ) := by ring
  rw [hden, if_neg (by positivity)]
  congr 1
  have hnum : (m : ℝ) - ((m : ℝ) - 2 * Real.sqrt (v : ℝ)) =
      2 * Real.sqrt (v : ℝ) := by ring
  rw [hnum]
  field_simp
  ring

/-- C8 (witness): on the series `[1, 3, 2]` with `ma_period = 3`, bar 2 has
close 2 equal to the window mean and sample variance 1, and the Bollinger
position is exactly 0.5. -/
theorem bb_close_at_ma_position_half_witness :
    rollingMeanAt [1, 3, 2] 3 2 = some 2 ∧
    bbPosAt [1, 3, 2] 3 2 = some (1 / 2 : ℝ) := by
  have hm : rollingMeanAt [1, 3, 2] 3 2 = some 2 := by
    norm_num [rollingMeanAt, winAt]
  have hv : rollingVarAt [1, 3, 2] 3 2 = some 1 := by
    norm_num [rollingVarAt, winAt]
  exact ⟨hm,
    bb_close_at_ma_position_half [1, 3, 2] 3 2 2 1 hm rfl hv one_ne_zero⟩

/-! ### Claim theorems: EMA trend and frame effects -/

/-- C6: on any non-empty price series, `compute_ema_trend` computes the two
EMAs by the recursion `y = (1 - α)·y_prev + α·x` with `α = 2/(span+1)`,
seeded from the first observed close with no warm-up averaging, and
returns Uptrend / Downtrend / Sideways according as the last short-EMA
value is greater than, less than, or equal to the last long-EMA value; it
always returns one of those three labels. -/
theorem ema_trend_spec (x0 : ℚ) (rest : List ℚ) (s l : ℕ) :
    compute_ema_trend (x0 :: rest) s l = .ok
      (if rest.foldl
            (fun p c => (1 - 2 / ((l : ℚ) + 1)) * p + 2 / ((l : ℚ) + 1) * c) x0 <
          rest.foldl
            (fun p c => (1 - 2 / ((s : ℚ) + 1)) * p + 2 / ((s : ℚ) + 1) * c) x0
        then "Uptrend"
        else if rest.foldl
            (fun p c => (1 - 2 / ((s : ℚ) + 1)) * p + 2 / ((s : ℚ) + 1) * c) x0 <
          rest.foldl
            (fun p c => (1 - 2 / ((l : ℚ) + 1)) * p + 2 / ((l : ℚ) + 1) * c) x0
        then "Downtrend" else "Sideways") ∧
    (compute_ema_trend (x0 :: rest) s l = .ok "Uptrend" ∨
      compute_ema_trend (x0 :: rest) s l = .ok "Downtrend" ∨
      compute_ema_trend (x0 :: rest) s l = .ok "Sideways") := by
  have h : compute_ema_trend (x0 :: rest) s l = .ok
      (if rest.foldl
            (fun p c => (1 - 2 / ((l : ℚ) + 1)) * p + 2 / ((l : ℚ) + 1) * c) x0 <
          rest.foldl
            (fun p c => (1 - 2 / ((s : ℚ) + 1)) * p + 2 / ((s : ℚ) + 1) * c) x0
        then "Uptrend"
        else if rest.foldl
            (fun p c => (1 - 2 / ((s : ℚ) + 1)) * p + 2 / ((s : ℚ) + 1) * c) x0 <
          rest.foldl
            (fun p c => (1 - 2 / ((l : ℚ) + 1)) * p + 2 / ((l : ℚ) + 1) * c) x0
        then "Downtrend" else "Sideways") := by
    have hfun : ∀ a : ℚ, emaStep a = fun p c => (1 - a) * p + a * c :=
      fun a => by funext p c; rfl
    simp only [compute_ema_trend, emaLast, hfun]
  refine ⟨h, ?_⟩
  rw [h]
  split_ifs <;> simp

/-- C9: none of the three engine functions mutates the caller's frame: at
the frame level each returns the caller's `DataFrame` exactly as received
(the source works on `df.copy()` or, for the EMA trend, never writes at
all), together with its computed result. -/
theorem engine_preserves_caller_frame (df : DataFrame) (w lb s l : ℕ) :
    (compute_pmarp_frame df w lb).2 = df ∧
    (compute_bb_frame df w lb).2 = df ∧
    (compute_ema_frame df s l).2 = df := by
  refine ⟨?_, ?_, ?_⟩
  · cases h : getCol df "Close" <;> simp [compute_pmarp_frame, h]
  · cases h : getCol df "Close" <;> simp [compute_bb_frame, h]
  · cases h : getCol df "Close" <;> simp [compute_ema_frame, h]

/-! ### Claim theorems: dropna comes before the lookback window -/

/-- Anatomy of a present `compute_bb_percentile` result, mirroring
`compute_pmarp_ok_elim`. -/
theorem compute_bb_ok_elim {xs : PriceSeries} {w lb : ℕ} {cur : ℝ} {pct : ℚ}
    (hlb : 0 < lb) (h : compute_bb_percentile xs w lb = .ok (some (cur, pct))) :
    lb ≤ ((bbPosSeries xs w).filterMap id).length ∧
    (ilocLast ((bbPosSeries xs w).filterMap id) lb).length = lb ∧
    (ilocLast ((bbPosSeries xs w).filterMap id) lb).getLast? = some cur ∧
    pct = percentileofscore (ilocLast ((bbPosSeries xs w).filterMap id) lb) cur := by
  unfold compute_bb_percentile at h
  by_cases hlen : ((bbPosSeries xs w).filterMap id).length < lb
  · simp [hlen] at h
  · simp only [hlen, if_false] at h
    refine ⟨not_lt.mp hlen, ?_, ?_⟩
    · simp only [ilocLast, hlb.ne.symm, if_false, List.length_drop]
      omega
    · cases hg : (ilocLast ((bbPosSeries xs w).filterMap id) lb).getLast? with
      | none => rw [hg] at h; exact absurd h (by simp)
      | some c =>
        rw [hg] at h
        simp only [Except.ok.injEq, Option.some.injEq, Prod.mk.injEq] at h
        exact ⟨by rw [h.1], h.1 ▸ h.2.symm⟩

/-- The last element of `l.filterMap id` is the value of the last
defined entry of `l`: every entry beyond its index is `none`. -/
theorem filterMap_id_getLast_spec {α : Type} :
    ∀ (l : List (Option α)) (a : α),
    (l.filterMap id).getLast? = some a →
    ∃ i, i < l.length ∧ l.getD i none = some a ∧
      ∀ j, i < j → j < l.length → l.getD j none = none := by
  intro l
  induction l using List.reverseRecOn with
  | nil => intro a h; simp at h
  | append_singleton l₂ x ih =>
    intro a h
    rw [List.filterMap_append] at h
    cases x with
    | none =>
      have hnil : List.filterMap id [(none : Option α)] = [] := by simp
      rw [hnil, List.append_nil] at h
      obtain ⟨i, hi, hg, hall⟩ := ih a h
      refine ⟨i, by simp; omega, ?_, ?_⟩
      · rw [List.getD_append _ _ _ _ hi]; exact hg
      · intro j hij hj
        simp only [List.length_append, List.length_cons, List.length_nil] at hj
        by_cases hjl : j < l₂.length
        · rw [List.getD_append _ _ _ _ hjl]; exact hall j hij hjl
        · have hje : j = l₂.length := by omega
          rw [hje, List.getD_append_right _ _ _ _ (le_refl _)]
          simp
    | some b =>
      have hone : List.filterMap id [(some b : Option α)] = [b] := by simp
      rw [hone, List.getLast?_concat] at h
      have hba : b = a := by simpa using h
      refine ⟨l₂.length, by simp, ?_, ?_⟩
      · rw [List.getD_append_right _ _ _ _ (le_refl _)]
        simp [hba]
      · intro j hij hj
        simp only [List.length_append, List.length_cons, List.length_nil] at hj
        omega

theorem bbPosSeries_getD {xs : List ℚ} {w i : ℕ} (hi : i < xs.length) :
    (bbPosSeries xs w).getD i none = bbPosAt xs w i := by
  have h1 : i < (bbPosSeries xs w).length := by
    simp [bbPosSeries]
    exact hi
  rw [List.getD_eq_getElem _ _ h1]
  simp [bbPosSeries]

/-- C10: whenever `compute_bb_percentile` returns a present result with
positive `lookback`, the sufficiency test and the window of exactly
`lookback` values range over the non-NaN positions only, and the reported
current position is the position of the most recent bar with a defined
(non-NaN) Bollinger position — every later bar's position is NaN. -/
theorem bb_dropna_before_lookback (xs : PriceSeries) (w lb : ℕ)
    (cur : ℝ) (pct : ℚ) (hlb : 0 < lb)
    (h : compute_bb_percentile xs w lb = .ok (some (cur, pct))) :
    lb ≤ ((bbPosSeries xs w).filterMap id).length ∧
    (ilocLast ((bbPosSeries xs w).filterMap id) lb).length = lb ∧
    ∃ i, i < xs.length ∧ bbPosAt xs w i = some cur ∧
      ∀ j, i < j → j < xs.length → bbPosAt xs w j = none := by
  obtain ⟨hge, hlen, hg, _⟩ := compute_bb_ok_elim hlb h
  refine ⟨hge, hlen, ?_⟩
  have hlast : ((bbPosSeries xs w).filterMap id).getLast? = some cur := by
    unfold ilocLast at hg
    rw [if_neg hlb.ne.symm, List.getLast?_drop] at hg
    by_cases hc : ((bbPosSeries xs w).filterMap id).length ≤
        ((bbPosSeries xs w).filterMap id).length - lb
    · rw [if_pos hc] at hg; exact absurd hg (by simp)
    · rw [if_neg hc] at hg; exact hg
  obtain ⟨i, hi, hgd, hall⟩ := filterMap_id_getLast_spec _ cur hlast
  have hlenS : (bbPosSeries xs w).length = xs.length := by simp [bbPosSeries]
  rw [hlenS] at hi
  refine ⟨i, hi, ?_, ?_⟩
  · rw [← bbPosSeries_getD hi]; exact hgd
  · intro j hij hj
    rw [← bbPosSeries_getD hj]
    exact hall j hij (by rw [hlenS]; exact hj)

/-- Worked example for C10: on `[3, 1, 1, 1, 1]` with `ma_period = 4` the
final bar's window is constant (zero std), so its position is NaN and the
current position 3/8 comes from bar 3, not the final bar. -/
theorem bbExample_last_bar_nan : bbPosAt [3, 1, 1, 1, 1] 4 4 = none := by
  have hm4 : rollingMeanAt [3, 1, 1, 1, 1] 4 4 = some 1 := by
    norm_num [rollingMeanAt, winAt]
  have hv4 : rollingVarAt [3, 1, 1, 1, 1] 4 4 = some 0 := by
    norm_num [rollingVarAt, winAt]
  have hs4 : rollingStdAt [3, 1, 1, 1, 1] 4 4 = some 0 := by
    rw [rollingStdAt, hv4]; norm_num [Real.sqrt_zero]
  have hl4 : lowerBandAt [3, 1, 1, 1, 1] 4 4 = some 1 := by
    rw [lowerBandAt, hm4, hs4]; norm_num
  have hu4 : upperBandAt [3, 1, 1, 1, 1] 4 4 = some 1 := by
    rw [upperBandAt, hm4, hs4]; norm_num
  simp [bbPosAt, hl4, hu4, fdivR]

/-- Worked example for C10: the full `compute_bb_percentile` evaluation on
`[3, 1, 1, 1, 1]` with `ma_period = 4`, `lookback = 1`. -/
theorem bbExample_eval :
    compute_bb_percentile [3, 1, 1, 1, 1] 4 1 = .ok (some ((3 / 8 : ℝ), 100)) := by
  have hm3 : rollingMeanAt [3, 1, 1, 1, 1] 4 3 = some (3 / 2) := by
    norm_num [rollingMeanAt, winAt]
  have hv3 : rollingVarAt [3, 1, 1, 1, 1] 4 3 = some 1 := by
    norm_num [rollingVarAt, winAt]
  have hs3 : rollingStdAt [3, 1, 1, 1, 1] 4 3 = some 1 := by
    rw [rollingStdAt, hv3]; norm_num
  have hl3 : lowerBandAt [3, 1, 1, 1, 1] 4 3 = some (-(1 / 2) : ℝ) := by
    rw [lowerBandAt, hm3, hs3]; norm_num
  have hu3 : upperBandAt [3, 1, 1, 1, 1] 4 3 = some ((7 / 2 : ℝ)) := by
    rw [upperBandAt, hm3, hs3]; norm_num
  have hp3 : bbPosAt [3, 1, 1, 1, 1] 4 3 = some ((3 / 8 : ℝ)) := by
    simp only [bbPosAt, hl3, hu3, fdivR]
    norm_num [List.getD]
  have hp0 : bbPosAt [3, 1, 1, 1, 1] 4 0 = none := by
    norm_num [bbPosAt, lowerBandAt, upperBandAt, rollingMeanAt]
  have hp1 : bbPosAt [3, 1, 1, 1, 1] 4 1 = none := by
    norm_num [bbPosAt, lowerBandAt, upperBandAt, rollingMeanAt]
  have hp2 : bbPosAt [3, 1, 1, 1, 1] 4 2 = none := by
    norm_num [bbPosAt, lowerBandAt, upperBandAt, rollingMeanAt]
  have hser : bbPosSeries [3, 1, 1, 1, 1] 4 =
      [none, none, none, some ((3 / 8 : ℝ)), none] := by
    simp [bbPosSeries, List.range_succ, hp0, hp1, hp2, hp3, bbExample_last_bar_nan]
  have hfm : ((bbPosSeries [3, 1, 1, 1, 1] 4).filterMap id) = [(3 / 8 : ℝ)] := by
    rw [hser]; simp
  rw [compute_bb_percentile, hfm]
  norm_num [ilocLast, percentileofscore, countLT, countLE, List.getLast?]

/-- C10 (witness): on `[3, 1, 1, 1, 1]` with `ma_period = 4`,
`lookback = 1`, the returned current position 3/8 is that of bar 3, while
the final bar 4 has a NaN position (zero band width) and is skipped. -/
theorem bb_dropna_before_lookback_witness :
    0 < 1 ∧ bbPosAt [3, 1, 1, 1, 1] 4 4 = none ∧
    (1 ≤ ((bbPosSeries [3, 1, 1, 1, 1] 4).filterMap id).length ∧
      (ilocLast ((bbPosSeries [3, 1, 1, 1, 1] 4).filterMap id) 1).length = 1 ∧
      ∃ i, i < ([3, 1, 1, 1, 1] : PriceSeries).length ∧
        bbPosAt [3, 1, 1, 1, 1] 4 i = some ((3 / 8 : ℝ)) ∧
        ∀ j, i < j → j < ([3, 1, 1, 1, 1] : PriceSeries).length →
          bbPosAt [3, 1, 1, 1, 1] 4 j = none) :=
  ⟨Nat.one_pos, bbExample_last_bar_nan,
    bb_dropna_before_lookback [3, 1, 1, 1, 1] 4 1 (3 / 8 : ℝ) 100 Nat.one_pos
      bbExample_eval⟩

end FuzzyAlloc
